import Mathlib

/-!
A verification development for the event-detection engine and the
generic bounded/unique collections of the `virtualobserver` repository.

The detection engine (`src/finder.py`) is embedded shallowly:

* Floating-point column values are modelled by `V := Option ℚ`, where
  `none` plays the role of IEEE NaN (it propagates through arithmetic
  and every ordered comparison against it is false, as in numpy).
  The model has no infinities: a division by an exactly-zero noise
  floor, which numpy would turn into `±inf`, is mapped to NaN instead.
  No claim examined here touches that degenerate case.
* A pandas `DataFrame` column is a Lean `List`; the lightcurve object
  is a structure holding the raw columns, the derived columns and the
  two precomputed robust statistics.
* `Series.values` returns a view of the column buffer, so the in-place
  assignment `snr[mask] = 0` in `Finder.ingest_lightcurves` writes
  through into the lightcurve's `snr` column whenever `abs_snr` is
  false (with `abs_snr` true, `np.abs` has interposed a copy).  The
  embedding reproduces this aliasing explicitly (`aliasState`).
* A raised exception (`IndexError` from `np.where(mask)[0][0]` on an
  all-false mask, `ValueError` from `np.argmax` on an empty array,
  `IndexError` from `pop(0)` on an empty list) is modelled by `none` /
  a failing `Option` result.

`UniqueList` and `CircularBufferList` (`src/utils.py`) are embedded as
structures over Lean lists with the exact removal/eviction logic of the
source.
-/

namespace VirtualObserver

-- Batteries marks the reduced-fraction rational primitives
-- `@[irreducible]`; re-allow unfolding them locally so that concrete
-- runs of the embedded pipeline can be evaluated by `decide`.
attribute [local semireducible] Rat.mul Rat.inv Rat.add Rat.sub

/-! ## Numeric model: floats with NaN -/

/-- A floating-point value: `none` is NaN, `some q` a finite value. -/
abbrev V := Option ℚ

/-- Numpy subtraction: NaN propagates. -/
def vSub : V → V → V
  | some a, some b => some (a - b)
  | _, _ => none

/-- Numpy division: NaN propagates.  A zero denominator is mapped to
NaN (numpy would produce `±inf`; no claim depends on that case). -/
def vDiv : V → V → V
  | some a, some b => if b = 0 then none else some (a / b)
  | _, _ => none

/-- Model of `np.abs`: NaN propagates. -/
def vAbs : V → V
  | some a => some |a|
  | none => none

/-- Model of `np.maximum`: NaN propagates. -/
def vMax : V → V → V
  | some a, some b => some (max a b)
  | _, _ => none

/-- Comparison `value > q` as numpy evaluates it: any comparison with NaN is false. -/
def vGtB (v : V) (q : ℚ) : Bool :=
  match v with
  | some a => decide (q < a)
  | none => false

/-- Model of `np.isnan`. -/
def visnan (v : V) : Bool := v.isNone

/-- Insert into a sorted list of rationals (ascending). -/
def insertSorted (q : ℚ) : List ℚ → List ℚ
  | [] => [q]
  | x :: xs => if q ≤ x then q :: x :: xs else x :: insertSorted q xs

/-- Sort a list of rationals ascending. -/
def sortQ (l : List ℚ) : List ℚ := l.foldr insertSorted []

/-- Median of a list of rationals: middle element, or the mean of the two
middle elements for even length; `none` on the empty list. -/
def medianQ (l : List ℚ) : Option ℚ :=
  let s := sortQ l
  let n := s.length
  if n = 0 then none
  else if n % 2 = 1 then some (s.getD (n / 2) 0)
  else some ((s.getD (n / 2 - 1) 0 + s.getD (n / 2) 0) / 2)

/-- Model of `pandas Series.median`: NaN entries are skipped; all-NaN gives NaN. -/
def vMedian (l : List V) : V := medianQ (l.filterMap id)

/-! ## List helpers mirroring the numpy primitives -/

/-- Three-list pointwise zip, mirroring an elementwise numpy expression
over three aligned arrays. -/
def zipWith3 (f : α → β → γ → δ) : List α → List β → List γ → List δ
  | a :: as_, b :: bs, c :: cs => f a b c :: zipWith3 f as_ bs cs
  | _, _, _ => []

/-- Model of `np.argmax` with its value: first index attaining the maximum
(numpy returns the first occurrence on ties); `none` on the empty array,
where numpy raises `ValueError`. -/
def argmaxQ : List ℚ → Option (ℕ × ℚ)
  | [] => none
  | x :: xs =>
    match argmaxQ xs with
    | none => some (0, x)
    | some (j, m) => if m > x then some (j + 1, m) else some (0, x)

/-- Index of the first `true` entry (`np.where(mask)[0][0]`);
`none` when the mask is all false, where numpy raises `IndexError`. -/
def firstTrue : List Bool → Option ℕ
  | [] => none
  | b :: bs => if b then some 0 else (firstTrue bs).map (· + 1)

/-- Index of the last `true` entry (`np.where(mask)[0][-1]`). -/
def lastTrueAux : List Bool → ℕ → Option ℕ → Option ℕ
  | [], _, acc => acc
  | b :: bs, i, acc => lastTrueAux bs (i + 1) (if b then some i else acc)

/-- Index of the last `true` entry of a boolean mask. -/
def lastTrue (l : List Bool) : Option ℕ := lastTrueAux l 0 none

/-! ## Data model -/

/-- A lightcurve: the raw measurement columns of its dataframe, the
derived columns written by the finder, the two precomputed robust
statistics, and the `times` array.  `detected = none` models the
absence of the `detected` column from the dataframe. -/
structure LC where
  times : List V
  flux : List V
  fluxerr : List V
  mag : List V
  flag : List Bool
  flux_mean_robust : V
  flux_rms_robust : V
  snr : List V
  dmag : List V
  detected : Option (List Bool)
deriving DecidableEq, Repr

/-- Number of rows of the lightcurve's dataframe. -/
def LC.n (lc : LC) : ℕ := lc.flux.length

/-- The `detected` column (callers inside the loop are guaranteed the
column exists; `[]` stands for the absent column). -/
def detCol (lc : LC) : List Bool := lc.detected.getD []

/-- The finder's recognized configuration options (`Parameters`
defaults: `snr_threshold=5`, `snr_threshold_sidebands=-2`,
`max_det_per_lc=1`, `abs_snr=True`).  `snr_threshold_sidebands` is
optional because `get_event_indices` probes for its presence. -/
structure Pars where
  snr_threshold : ℚ
  snr_threshold_sidebands : Option ℚ
  max_det_per_lc : ℕ
  abs_snr : Bool
deriving DecidableEq, Repr

/-- A `DetectionInTime` record with the fields the finder populates.
`peak_idx` is a specification ghost field remembering the peak index
(the source stores `times[peak_idx]` as `time_peak`); `simulated`
models `sim is not None`. -/
structure Detection where
  peak_idx : ℕ
  time_peak : V
  snr : V
  time_indices : List Bool
  time_start : V
  time_end : V
  simulated : Bool
deriving DecidableEq, Repr

/-! ## Finder.estimate_flux_noise and the score computation -/

/-- Embeds `Finder.estimate_flux_noise`: elementwise maximum of the per-point
flux error and the whole-curve robust RMS.  The optional `source`
argument is unused by the base class and omitted. -/
def estimate_flux_noise (lc : LC) : List V :=
  lc.fluxerr.map (fun e => vMax e lc.flux_rms_robust)

/-- The score-computation prefix of `Finder.ingest_lightcurves`:
writes the `snr` and `dmag` derived columns and creates the `detected`
column (all false) if absent. -/
def score (lc : LC) : LC :=
  let noise := estimate_flux_noise lc
  let snr := List.zipWith (fun f nv => vDiv (vSub f lc.flux_mean_robust) nv) lc.flux noise
  let md := vMedian lc.mag
  let dmag := lc.mag.map (fun m => vSub m md)
  let det :=
    match lc.detected with
    | some d => some d
    | none => some (List.replicate lc.n false)
  { lc with snr := snr, dmag := dmag, detected := det }

/-! ## Finder.get_event_indices and Finder.make_detection -/

/-- The membership threshold of `Finder.get_event_indices`: a negative
sideband threshold is relative to `snr_threshold`, a non-negative one
is absolute, and an absent one falls back to `snr_threshold`. -/
def event_thresh (p : Pars) : ℚ :=
  match p.snr_threshold_sidebands with
  | some sb => if sb < 0 then p.snr_threshold + sb else sb
  | none => p.snr_threshold

/-- Embeds `Finder.get_event_indices`: the boolean membership mask
`lightcurve.data["snr"].values > thresh`. -/
def get_event_indices (p : Pars) (lc : LC) : List Bool :=
  lc.snr.map (fun v => vGtB v (event_thresh p))

/-- The assignment marking window indices detected in `make_detection`: set the
`detected` column to true at every index the mask marks. -/
def markWindow (lc : LC) (ti : List Bool) : LC :=
  { lc with detected := some (List.zipWith (fun d t => d || t) (detCol lc) ti) }

/-- Embeds `Finder.make_detection`.  Returns the lightcurve with the window
indices marked `detected` together with the detection, or `none` in
the detection slot when the source would raise (`IndexError` from
`np.where(ti)[0][0]` on an all-false membership mask, or an
out-of-range lookup). -/
def make_detection (p : Pars) (ix : ℕ) (lc : LC) (sim : Bool) : LC × Option Detection :=
  match lc.times.get? ix, lc.snr.get? ix with
  | some tp, some sv =>
    let ti := get_event_indices p lc
    let lc2 := markWindow lc ti
    match firstTrue ti, lastTrue ti with
    | some i0, some i1 =>
      match lc.times.get? i0, lc.times.get? i1 with
      | some ts, some te =>
        (lc2, some { peak_idx := ix, time_peak := tp, snr := sv, time_indices := ti,
                     time_start := ts, time_end := te, simulated := sim })
      | _, _ => (lc2, none)
    | _, _ => (lc2, none)
  | _, _ => (lc, none)

/-! ## The peak-extraction loop of Finder.ingest_lightcurves -/

/-- The working S/N view of one loop iteration: absolute value when
`abs_snr` is configured. -/
def snrView (p : Pars) (lc : LC) : List V :=
  if p.abs_snr then lc.snr.map vAbs else lc.snr

/-- The exclusion mask of one loop iteration:
`detected | flag | isnan(snr)`. -/
def maskArr (p : Pars) (lc : LC) : List Bool :=
  zipWith3 (fun d f s => d || f || visnan s) (detCol lc) lc.flag (snrView p lc)

/-- The working S/N array after `snr[mask] = 0`. -/
def workArr (p : Pars) (lc : LC) : List ℚ :=
  List.zipWith (fun m s => if m then 0 else s.getD 0) (maskArr p lc) (snrView p lc)

/-- The lightcurve after the in-place `snr[mask] = 0`: with `abs_snr`
false, `lc.data["snr"].values` is a view of the column buffer, so the
assignment zeroes the column itself; with `abs_snr` true, `np.abs`
produced a copy and the column is untouched. -/
def aliasState (p : Pars) (lc : LC) : LC :=
  if p.abs_snr then lc else { lc with snr := (workArr p lc).map some }

/-- Outcome of one iteration of the extraction loop. -/
inductive StepRes where
  | fail
  | halt (lc : LC)
  | emit (idx : ℕ) (mx : ℚ) (lc : LC) (d : Detection)
deriving DecidableEq, Repr

/-- One iteration of the `for i in range(self.pars.max_det_per_lc)`
body: build the working S/N, mask it, select `idx = np.argmax(snr)`;
emit a detection when the maximum strictly exceeds `snr_threshold`,
halt (`break`) otherwise; fail when the source would raise. -/
def detect_step (p : Pars) (sim : Bool) (lc : LC) : StepRes :=
  let working := workArr p lc
  let lc1 := aliasState p lc
  match argmaxQ working with
  | none => .fail
  | some (idx, mx) =>
    if mx > p.snr_threshold then
      match make_detection p idx lc1 sim with
      | (lc2, some d) => .emit idx mx lc2 d
      | (_, none) => .fail
    else .halt lc1

/-- The extraction loop with `fuel` remaining iterations. -/
def detect_loop (p : Pars) (sim : Bool) : ℕ → LC → Option (LC × List Detection)
  | 0, lc => some (lc, [])
  | k + 1, lc =>
    match detect_step p sim lc with
    | .fail => none
    | .halt lc1 => some (lc1, [])
    | .emit _ _ lc2 d =>
      match detect_loop p sim k lc2 with
      | none => none
      | some (lc3, ds) => some (lc3, d :: ds)

/-- Embeds `Finder.ingest_lightcurves` restricted to a single lightcurve:
score computation followed by the extraction loop. -/
def ingest_one (p : Pars) (sim : Bool) (lc : LC) : Option (LC × List Detection) :=
  detect_loop p sim p.max_det_per_lc (score lc)

/-- Embeds `Finder.ingest_lightcurves` over a list of lightcurves; returns the
mutated lightcurves together with the accumulated detection list, or
`none` when the source would raise. -/
def ingest_lightcurves (p : Pars) (sim : Bool) : List LC → Option (List LC × List Detection)
  | [] => some ([], [])
  | lc :: rest =>
    match ingest_one p sim lc with
    | none => none
    | some (lc1, ds) =>
      match ingest_lightcurves p sim rest with
      | none => none
      | some (lcs, ds2) => some (lc1 :: lcs, ds ++ ds2)

/-! ## UniqueList (src/utils.py) -/

/-- An attribute value of an element stored in a `UniqueList`: a string
or some other (non-string) value; `==` across the two constructors is
false, as in Python. -/
inductive AttrVal where
  | str (s : String)
  | num (z : ℤ)
deriving DecidableEq, Repr

/-- An element, viewed through `getattr`: a total map from attribute
names to attribute values. -/
abbrev Elem := String → AttrVal

/-- Embeds `UniqueList._compare`: equality of two keys, lower-casing both when
`ignorecase` is set and both are strings. -/
def ulCompare (ignorecase : Bool) : AttrVal → AttrVal → Bool
  | .str a, .str b => if ignorecase then a.toLower == b.toLower else a == b
  | a, b => a == b

/-- Embeds `UniqueList._check`: the composite keys of two elements agree on
every configured comparison attribute. -/
def ulCheck (attrs : List String) (ignorecase : Bool) (v o : Elem) : Bool :=
  attrs.all (fun att => ulCompare ignorecase (v att) (o att))

/-- The `UniqueList` state: its configuration and its elements. -/
structure UL where
  comparison_attributes : List String
  ignorecase : Bool
  items : List Elem

/-- Embeds the `UniqueList` constructor: an empty attribute list defaults to
`["name"]`. -/
def mkUL (attrs : List String) (ignorecase : Bool) : UL :=
  { comparison_attributes := if attrs.length = 0 then ["name"] else attrs,
    ignorecase := ignorecase, items := [] }

/-- The `_check` predicate bound to a list's configuration. -/
def UL.check (ul : UL) (v o : Elem) : Bool :=
  ulCheck ul.comparison_attributes ul.ignorecase v o

/-- Embeds `UniqueList._check_and_remove`: the reverse-order in-place popping
removes every element matching `v`'s composite key, keeping the order
of the survivors — i.e. a filter. -/
def UL.check_and_remove (ul : UL) (v : Elem) : UL :=
  { ul with items := ul.items.filter (fun o => !(ul.check v o)) }

/-- Embeds `UniqueList.append`: remove all key-matches, then append. -/
def UL.append (ul : UL) (v : Elem) : UL :=
  let u := ul.check_and_remove v
  { u with items := u.items ++ [v] }

/-- Embeds `UniqueList.extend`: first remove, for every batch element, all
matches among the existing items; then append the whole batch. -/
def UL.extend (ul : UL) (vs : List Elem) : UL :=
  let u := vs.foldl UL.check_and_remove ul
  { u with items := u.items ++ vs }

/-- The insert operations a `UniqueList` supports. -/
inductive ULOp where
  | append (e : Elem)
  | extend (es : List Elem)

/-- Apply one insert operation. -/
def applyULOp (ul : UL) : ULOp → UL
  | .append e => ul.append e
  | .extend es => ul.extend es

/-- Apply a sequence of insert operations. -/
def applyULOps (ul : UL) (ops : List ULOp) : UL :=
  ops.foldl applyULOp ul

/-- No two elements of the list (in either order, `ulCheck` being
symmetric) share a composite key. -/
def dupFreeAux (chk : Elem → Elem → Bool) : List Elem → Bool
  | [] => true
  | x :: xs => xs.all (fun y => !(chk x y)) && dupFreeAux chk xs

/-- The `UniqueList` invariant: no two stored elements share a
composite key. -/
def UL.dupFree (ul : UL) : Bool := dupFreeAux ul.check ul.items

/-! ## CircularBufferList (src/utils.py) -/

/-- The `CircularBufferList` state: capacity, lifetime insertion count,
and current contents. -/
structure CBL (α : Type) where
  size : ℕ
  total : ℕ
  items : List α
deriving DecidableEq, Repr

/-- Embeds the `CircularBufferList` constructor. -/
def mkCBL (α : Type) (size : ℕ) : CBL α :=
  { size := size, total := 0, items := [] }

/-- The Python slice `l[-size:]`: the whole list when `size = 0`
(`-0` is `0`), otherwise the trailing `min size (length l)` elements. -/
def lastSlice (l : List α) (size : ℕ) : List α :=
  if size = 0 then l else l.drop (l.length - size)

/-- Embeds `CircularBufferList.append`: evict index 0 when at capacity, then
append and count.  `pop(0)` on an empty list raises `IndexError`,
modelled as `none` — reachable exactly when `size = 0`. -/
def CBL.append (b : CBL α) (v : α) : Option (CBL α) :=
  if b.items.length = b.size then
    match b.items with
    | [] => none
    | _ :: rest => some { b with items := rest ++ [v], total := b.total + 1 }
  else some { b with items := b.items ++ [v], total := b.total + 1 }

/-- Embeds `CircularBufferList.extend`: count all inputs, append them, then
truncate to the Python slice `self[-self.size:]`. -/
def CBL.extend (b : CBL α) (vs : List α) : CBL α :=
  { b with total := b.total + vs.length, items := lastSlice (b.items ++ vs) b.size }

/-- The operations a `CircularBufferList` supports. -/
inductive CBOp (α : Type) where
  | append (v : α)
  | extend (vs : List α)
deriving DecidableEq, Repr

/-- Apply one buffer operation. -/
def applyCBOp (b : CBL α) : CBOp α → Option (CBL α)
  | .append v => b.append v
  | .extend vs => some (b.extend vs)

/-- Apply a sequence of buffer operations, propagating failure. -/
def applyCBOps (b : CBL α) : List (CBOp α) → Option (CBL α)
  | [] => some b
  | op :: ops =>
    match applyCBOp b op with
    | none => none
    | some b1 => applyCBOps b1 ops

/-- All elements ever passed to the operations, in insertion order. -/
def allInserted : List (CBOp α) → List α
  | [] => []
  | .append v :: ops => v :: allInserted ops
  | .extend vs :: ops => vs ++ allInserted ops

/-! ## Well-formedness and raw-column equality -/

/-- Column lengths of the raw lightcurve agree (a dataframe invariant),
including the `detected` column when present. -/
@[reducible] def WFraw (lc : LC) : Prop :=
  lc.times.length = lc.n ∧ lc.fluxerr.length = lc.n ∧ lc.mag.length = lc.n ∧
    lc.flag.length = lc.n ∧ lc.detected.all (fun d => d.length == lc.n) = true

/-- Well-formedness of a lightcurve inside the extraction loop: raw
columns aligned, `snr` column aligned, `detected` column present. -/
@[reducible] def WF (lc : LC) : Prop :=
  WFraw lc ∧ lc.snr.length = lc.n ∧ lc.detected = some (detCol lc)

/-- The raw measurement data of two lightcurves coincide. -/
def rawEq (a b : LC) : Prop :=
  a.times = b.times ∧ a.flux = b.flux ∧ a.fluxerr = b.fluxerr ∧ a.mag = b.mag ∧
    a.flag = b.flag ∧ a.flux_mean_robust = b.flux_mean_robust ∧
    a.flux_rms_robust = b.flux_rms_robust

theorem rawEq_refl (a : LC) : rawEq a a := by
  refine ⟨rfl, rfl, rfl, rfl, rfl, rfl, rfl⟩

theorem rawEq_trans {a b c : LC} (h1 : rawEq a b) (h2 : rawEq b c) : rawEq a c := by
  obtain ⟨p1, p2, p3, p4, p5, p6, p7⟩ := h1
  obtain ⟨q1, q2, q3, q4, q5, q6, q7⟩ := h2
  exact ⟨p1.trans q1, p2.trans q2, p3.trans q3, p4.trans q4, p5.trans q5,
    p6.trans q6, p7.trans q7⟩

/-! ## Lemma kit: list access -/

theorem get?_zipWith3_eq_some {α β γ δ : Type} {f : α → β → γ → δ}
    {a : List α} {b : List β} {c : List γ} {i : ℕ} {x : δ} :
    (zipWith3 f a b c).get? i = some x ↔
      ∃ u v w, a.get? i = some u ∧ b.get? i = some v ∧ c.get? i = some w ∧ f u v w = x := by
  induction a generalizing b c i with
  | nil => simp [zipWith3]
  | cons ha ta ih =>
    cases b with
    | nil => simp [zipWith3]
    | cons hb tb =>
      cases c with
      | nil => simp [zipWith3]
      | cons hc tc =>
        cases i with
        | zero =>
          constructor
          · intro h
            exact ⟨ha, hb, hc, rfl, rfl, rfl, by simpa [zipWith3] using h⟩
          · rintro ⟨u, v, w, hu, hv, hw, hf⟩
            simp only [List.get?] at hu hv hw
            cases hu; cases hv; cases hw
            simpa [zipWith3] using hf
        | succ j => simpa [zipWith3] using ih

theorem length_zipWith3 {α β γ δ : Type} (f : α → β → γ → δ)
    (a : List α) (b : List β) (c : List γ) :
    (zipWith3 f a b c).length = min a.length (min b.length c.length) := by
  induction a generalizing b c with
  | nil => simp [zipWith3]
  | cons ha ta ih =>
    cases b with
    | nil => simp [zipWith3]
    | cons hb tb =>
      cases c with
      | nil => simp [zipWith3]
      | cons hc tc =>
        simp [zipWith3, ih, Nat.succ_min_succ]

theorem argmaxQ_ne_none {l : List ℚ} (h : l ≠ []) : argmaxQ l ≠ none := by
  cases l with
  | nil => exact absurd rfl h
  | cons x xs =>
    simp only [argmaxQ]
    cases hxs : argmaxQ xs with
    | none => simp
    | some jm =>
      obtain ⟨j, m⟩ := jm
      by_cases hm : m > x <;> simp [hm]

theorem argmaxQ_spec {l : List ℚ} {j : ℕ} {m : ℚ} (h : argmaxQ l = some (j, m)) :
    l.get? j = some m ∧ ∀ y ∈ l, y ≤ m := by
  induction l generalizing j m with
  | nil => simp [argmaxQ] at h
  | cons x xs ih =>
    simp only [argmaxQ] at h
    cases hxs : argmaxQ xs with
    | none =>
      rw [hxs] at h
      have hnil : xs = [] := by
        cases xs with
        | nil => rfl
        | cons y ys => exact absurd hxs (argmaxQ_ne_none (by simp))
      cases h
      subst hnil
      simp
    | some jm =>
      obtain ⟨j0, m0⟩ := jm
      rw [hxs] at h
      obtain ⟨hget, hmax⟩ := ih hxs
      by_cases hm : m0 > x
      · simp only [if_pos hm] at h
        cases h
        refine ⟨by simpa using hget, ?_⟩
        intro y hy
        rcases List.mem_cons.mp hy with rfl | hy
        · exact le_of_lt hm
        · exact hmax y hy
      · simp only [if_neg hm] at h
        cases h
        refine ⟨rfl, ?_⟩
        intro y hy
        rcases List.mem_cons.mp hy with rfl | hy
        · exact le_rfl
        · exact le_trans (hmax y hy) (not_lt.mp hm)

/-! ## Lemma kit: mask and working array access -/

theorem maskArr_get?_some {p : Pars} {lc : LC} {i : ℕ} {m : Bool}
    (h : (maskArr p lc).get? i = some m) :
    ∃ dv fv sv, (detCol lc).get? i = some dv ∧ lc.flag.get? i = some fv ∧
      (snrView p lc).get? i = some sv ∧ m = (dv || fv || visnan sv) := by
  obtain ⟨u, v, w, hu, hv, hw, hf⟩ := get?_zipWith3_eq_some.mp h
  exact ⟨u, v, w, hu, hv, hw, hf.symm⟩

theorem maskArr_get?_intro {p : Pars} {lc : LC} {i : ℕ} {dv fv : Bool} {sv : V}
    (hd : (detCol lc).get? i = some dv) (hf : lc.flag.get? i = some fv)
    (hs : (snrView p lc).get? i = some sv) :
    (maskArr p lc).get? i = some (dv || fv || visnan sv) :=
  get?_zipWith3_eq_some.mpr ⟨dv, fv, sv, hd, hf, hs, rfl⟩

theorem workArr_get?_some {p : Pars} {lc : LC} {i : ℕ} {y : ℚ}
    (h : (workArr p lc).get? i = some y) :
    ∃ m sv, (maskArr p lc).get? i = some m ∧ (snrView p lc).get? i = some sv ∧
      y = if m then 0 else sv.getD 0 := by
  obtain ⟨u, v, hu, hv, hf⟩ := (List.get?_zipWith_eq_some _ _ _ _ _).mp h
  exact ⟨u, v, hu, hv, hf.symm⟩

theorem workArr_get?_intro {p : Pars} {lc : LC} {i : ℕ} {m : Bool} {sv : V}
    (hm : (maskArr p lc).get? i = some m) (hs : (snrView p lc).get? i = some sv) :
    (workArr p lc).get? i = some (if m then 0 else sv.getD 0) :=
  (List.get?_zipWith_eq_some _ _ _ _ _).mpr ⟨m, sv, hm, hs, rfl⟩

/-! ## Lemma kit: extraction from the loop body -/

theorem make_detection_some {p : Pars} {ix : ℕ} {lc : LC} {sim : Bool} {lc2 : LC} {d : Detection}
    (h : make_detection p ix lc sim = (lc2, some d)) :
    d.peak_idx = ix ∧ d.time_indices = get_event_indices p lc ∧
      lc2 = markWindow lc (get_event_indices p lc) := by
  simp only [make_detection] at h
  split at h
  next tp sv _ _ =>
    split at h
    next i0 i1 _ _ =>
      split at h
      next ts te _ _ =>
        simp only [Prod.mk.injEq, Option.some.injEq] at h
        obtain ⟨h1, h2⟩ := h
        subst h1
        subst h2
        exact ⟨rfl, rfl, rfl⟩
      next => simp at h
    next => simp at h
  next => simp at h

theorem detect_step_emit {p : Pars} {sim : Bool} {lc lc2 : LC} {idx : ℕ} {mx : ℚ} {d : Detection}
    (h : detect_step p sim lc = .emit idx mx lc2 d) :
    argmaxQ (workArr p lc) = some (idx, mx) ∧ mx > p.snr_threshold ∧
      make_detection p idx (aliasState p lc) sim = (lc2, some d) := by
  simp only [detect_step] at h
  split at h
  next => simp at h
  next j m harg =>
    split at h
    next hmx =>
      split at h
      next lcx dx hmk =>
        cases h
        exact ⟨harg, hmx, hmk⟩
      next => simp at h
    next => simp at h

theorem detect_step_halt {p : Pars} {sim : Bool} {lc lc1 : LC}
    (h : detect_step p sim lc = .halt lc1) :
    lc1 = aliasState p lc ∧
      ∃ idx mx, argmaxQ (workArr p lc) = some (idx, mx) ∧ ¬ mx > p.snr_threshold := by
  simp only [detect_step] at h
  split at h
  next => simp at h
  next j m harg =>
    split at h
    next hmx =>
      split at h <;> simp at h
    next hmx =>
      cases h
      exact ⟨rfl, j, m, harg, hmx⟩

theorem detect_step_halt_intro {p : Pars} (sim : Bool) {lc : LC} {idx : ℕ} {mx : ℚ}
    (harg : argmaxQ (workArr p lc) = some (idx, mx)) (hmx : ¬ mx > p.snr_threshold) :
    detect_step p sim lc = .halt (aliasState p lc) := by
  simp only [detect_step]
  rw [harg]
  simp [hmx]

/-! ## Lemma kit: well-formedness propagation -/

theorem length_snrView (p : Pars) (lc : LC) : (snrView p lc).length = lc.snr.length := by
  unfold snrView
  split <;> simp

theorem WF_detCol_length {lc : LC} (h : WF lc) : (detCol lc).length = lc.n := by
  obtain ⟨⟨_, _, _, _, hall⟩, _, hsome⟩ := h
  rw [hsome] at hall
  simpa [Option.all] using hall

theorem WF_maskArr_length {p : Pars} {lc : LC} (h : WF lc) :
    (maskArr p lc).length = lc.n := by
  unfold maskArr
  rw [length_zipWith3, WF_detCol_length h, length_snrView, h.2.1, h.1.2.2.2.1]
  simp

theorem WF_workArr_length {p : Pars} {lc : LC} (h : WF lc) :
    (workArr p lc).length = lc.n := by
  unfold workArr
  rw [List.length_zipWith, WF_maskArr_length h, length_snrView, h.2.1]
  simp

theorem score_n (lc : LC) : (score lc).n = lc.n := rfl

theorem score_detected_none {lc : LC} (h : lc.detected = none) :
    (score lc).detected = some (List.replicate lc.n false) := by
  show (match lc.detected with
    | some d => some d
    | none => some (List.replicate lc.n false)) = _
  rw [h]

theorem score_detected_some {lc : LC} {dl : List Bool} (h : lc.detected = some dl) :
    (score lc).detected = some dl := by
  show (match lc.detected with
    | some d => some d
    | none => some (List.replicate lc.n false)) = _
  rw [h]

theorem score_snr_length {lc : LC} (h2 : lc.fluxerr.length = lc.n) :
    (score lc).snr.length = lc.n := by
  show (List.zipWith (fun f nv => vDiv (vSub f lc.flux_mean_robust) nv) lc.flux
    (estimate_flux_noise lc)).length = lc.n
  rw [List.length_zipWith]
  unfold estimate_flux_noise
  rw [List.length_map, h2]
  exact min_self _

theorem WF_score {lc : LC} (h : WFraw lc) : WF (score lc) := by
  obtain ⟨h1, h2, h3, h4, h5⟩ := h
  have hsnr := score_snr_length h2
  cases hdet : lc.detected with
  | none =>
    have hd := score_detected_none hdet
    refine ⟨⟨h1, h2, h3, h4, ?_⟩, hsnr, ?_⟩
    · rw [hd]
      show ((List.replicate lc.n false).length == (score lc).n) = true
      rw [List.length_replicate]
      exact beq_self_eq_true _
    · rw [hd]
      simp [detCol, hd]
  | some dl =>
    rw [hdet] at h5
    have hd := score_detected_some hdet
    refine ⟨⟨h1, h2, h3, h4, ?_⟩, hsnr, ?_⟩
    · rw [hd]
      exact h5
    · rw [hd]
      simp [detCol, hd]

theorem aliasState_detected (p : Pars) (lc : LC) :
    (aliasState p lc).detected = lc.detected := by
  unfold aliasState
  split <;> rfl

theorem aliasState_flag (p : Pars) (lc : LC) : (aliasState p lc).flag = lc.flag := by
  unfold aliasState
  split <;> rfl

theorem aliasState_n (p : Pars) (lc : LC) : (aliasState p lc).n = lc.n := by
  unfold aliasState
  split <;> rfl

theorem WF_aliasState {p : Pars} {lc : LC} (h : WF lc) : WF (aliasState p lc) := by
  obtain ⟨⟨h1, h2, h3, h4, h5⟩, h6, h7⟩ := h
  unfold aliasState
  split
  · exact ⟨⟨h1, h2, h3, h4, h5⟩, h6, h7⟩
  · refine ⟨⟨h1, h2, h3, h4, h5⟩, ?_, h7⟩
    show ((workArr p lc).map some).length = lc.n
    rw [List.length_map]
    exact WF_workArr_length ⟨⟨h1, h2, h3, h4, h5⟩, h6, h7⟩

theorem WF_markWindow {lc : LC} {ti : List Bool} (h : WF lc) (hti : ti.length = lc.n) :
    WF (markWindow lc ti) := by
  obtain ⟨⟨h1, h2, h3, h4, h5⟩, h6, h7⟩ := h
  refine ⟨⟨h1, h2, h3, h4, ?_⟩, h6, ?_⟩
  · show ((List.zipWith (fun d t => d || t) (detCol lc) ti).length == (markWindow lc ti).n) = true
    rw [List.length_zipWith, WF_detCol_length ⟨⟨h1, h2, h3, h4, h5⟩, h6, h7⟩, hti, min_self]
    exact beq_self_eq_true _
  · simp [markWindow, detCol]

theorem length_get_event_indices {p : Pars} {lc : LC} :
    (get_event_indices p lc).length = lc.snr.length := by
  unfold get_event_indices
  exact List.length_map _ _

theorem WF_make_detection {p : Pars} {ix : ℕ} {lc : LC} {sim : Bool} {lc2 : LC} {d : Detection}
    (h : WF lc) (hmk : make_detection p ix lc sim = (lc2, some d)) : WF lc2 := by
  obtain ⟨-, -, hlc2⟩ := make_detection_some hmk
  subst hlc2
  exact WF_markWindow h (length_get_event_indices.trans h.2.1)

theorem WF_detect_step_emit {p : Pars} {sim : Bool} {lc lc2 : LC} {idx : ℕ} {mx : ℚ}
    {d : Detection} (h : WF lc) (hstep : detect_step p sim lc = .emit idx mx lc2 d) :
    WF lc2 := by
  obtain ⟨_, _, hmk⟩ := detect_step_emit hstep
  exact WF_make_detection (WF_aliasState h) hmk

/-! ## Lemma kit: raw columns are never written -/

theorem rawEq_score (lc : LC) : rawEq lc (score lc) :=
  ⟨rfl, rfl, rfl, rfl, rfl, rfl, rfl⟩

theorem rawEq_markWindow (lc : LC) (ti : List Bool) : rawEq lc (markWindow lc ti) :=
  ⟨rfl, rfl, rfl, rfl, rfl, rfl, rfl⟩

theorem rawEq_aliasState (p : Pars) (lc : LC) : rawEq lc (aliasState p lc) := by
  unfold aliasState
  split
  · exact rawEq_refl lc
  · exact ⟨rfl, rfl, rfl, rfl, rfl, rfl, rfl⟩

theorem rawEq_make_detection (p : Pars) (ix : ℕ) (lc : LC) (sim : Bool) :
    rawEq lc (make_detection p ix lc sim).1 := by
  simp only [make_detection]
  split
  next =>
    split
    next =>
      split
      next => exact rawEq_markWindow _ _
      next => exact rawEq_markWindow _ _
    next => exact rawEq_markWindow _ _
  next => exact rawEq_refl lc

theorem rawEq_detect_step_emit {p : Pars} {sim : Bool} {lc lc2 : LC} {idx : ℕ} {mx : ℚ}
    {d : Detection} (h : detect_step p sim lc = .emit idx mx lc2 d) : rawEq lc lc2 := by
  obtain ⟨-, -, hmk⟩ := detect_step_emit h
  have h1 := rawEq_aliasState p lc
  have h2 := rawEq_make_detection p idx (aliasState p lc) sim
  rw [hmk] at h2
  exact rawEq_trans h1 h2

theorem rawEq_detect_step_halt {p : Pars} {sim : Bool} {lc lc1 : LC}
    (h : detect_step p sim lc = .halt lc1) : rawEq lc lc1 := by
  obtain ⟨h1, -⟩ := detect_step_halt h
  rw [h1]
  exact rawEq_aliasState p lc

theorem rawEq_detect_loop {p : Pars} {sim : Bool} {k : ℕ} {lc lc' : LC} {ds : List Detection}
    (h : detect_loop p sim k lc = some (lc', ds)) : rawEq lc lc' := by
  induction k generalizing lc lc' ds with
  | zero =>
    simp only [detect_loop, Option.some.injEq, Prod.mk.injEq] at h
    rw [← h.1]
    exact rawEq_refl lc
  | succ k ih =>
    simp only [detect_loop] at h
    cases hstep : detect_step p sim lc with
    | fail => rw [hstep] at h; simp at h
    | halt lc1 =>
      rw [hstep] at h
      simp only [Option.some.injEq, Prod.mk.injEq] at h
      rw [← h.1]
      exact rawEq_detect_step_halt hstep
    | emit idx mx lc2 d =>
      rw [hstep] at h
      dsimp only at h
      cases hrest : detect_loop p sim k lc2 with
      | none => rw [hrest] at h; simp at h
      | some r =>
        obtain ⟨lc3, ds3⟩ := r
        rw [hrest] at h
        simp only [Option.some.injEq, Prod.mk.injEq] at h
        rw [← h.1]
        exact rawEq_trans (rawEq_detect_step_emit hstep) (ih hrest)

theorem rawEq_ingest_one {p : Pars} {sim : Bool} {lc lc' : LC} {ds : List Detection}
    (h : ingest_one p sim lc = some (lc', ds)) : rawEq lc lc' :=
  rawEq_trans (rawEq_score lc) (rawEq_detect_loop h)

/-! ## Lemma kit: the detected column only grows, windows get marked -/

theorem getD_false_iff_get? {l : List Bool} {i : ℕ} :
    l.getD i false = true ↔ l.get? i = some true := by
  rw [List.getD_eq_get?]
  cases h : l.get? i with
  | none => simp
  | some b => cases b <;> simp

theorem zipWith_or_getD_left {a b : List Bool} (hlen : a.length = b.length) {i : ℕ}
    (hi : a.getD i false = true) :
    (List.zipWith (fun x y => x || y) a b).getD i false = true := by
  rw [getD_false_iff_get?] at hi ⊢
  obtain ⟨hlt, -⟩ := List.get?_eq_some.mp hi
  have hb : ∃ y, b.get? i = some y := by
    cases hy : b.get? i with
    | none => exact absurd (List.get?_eq_none.mp hy) (by omega)
    | some y => exact ⟨y, rfl⟩
  obtain ⟨y, hy⟩ := hb
  have := (List.get?_zipWith_eq_some (fun x y => x || y) a b (true || y) i).mpr
    ⟨true, y, hi, hy, rfl⟩
  rw [this]
  simp

theorem zipWith_or_getD_right {a b : List Bool} (hlen : b.length = a.length) {i : ℕ}
    (hi : b.getD i false = true) :
    (List.zipWith (fun x y => x || y) a b).getD i false = true := by
  rw [getD_false_iff_get?] at hi ⊢
  obtain ⟨hlt, -⟩ := List.get?_eq_some.mp hi
  have ha : ∃ x, a.get? i = some x := by
    cases hx : a.get? i with
    | none => exact absurd (List.get?_eq_none.mp hx) (by omega)
    | some x => exact ⟨x, rfl⟩
  obtain ⟨x, hx⟩ := ha
  have := (List.get?_zipWith_eq_some (fun x y => x || y) a b (x || true) i).mpr
    ⟨x, true, hx, hi, rfl⟩
  rw [this]
  simp

theorem detCol_markWindow (lc : LC) (ti : List Bool) :
    detCol (markWindow lc ti) = List.zipWith (fun x y => x || y) (detCol lc) ti := rfl

theorem detCol_aliasState (p : Pars) (lc : LC) : detCol (aliasState p lc) = detCol lc := by
  unfold detCol
  rw [aliasState_detected]

theorem detected_mono_step {p : Pars} {sim : Bool} {lc lc2 : LC} {idx : ℕ} {mx : ℚ}
    {d : Detection} (hwf : WF lc) (h : detect_step p sim lc = .emit idx mx lc2 d) :
    ∀ i, (detCol lc).getD i false = true → (detCol lc2).getD i false = true := by
  obtain ⟨-, -, hmk⟩ := detect_step_emit h
  obtain ⟨-, -, hlc2⟩ := make_detection_some hmk
  intro i hi
  rw [hlc2, detCol_markWindow, detCol_aliasState]
  refine zipWith_or_getD_left ?_ hi
  rw [WF_detCol_length hwf, length_get_event_indices,
    (WF_aliasState (p := p) hwf).2.1, aliasState_n]

theorem window_marked_step {p : Pars} {sim : Bool} {lc lc2 : LC} {idx : ℕ} {mx : ℚ}
    {d : Detection} (hwf : WF lc) (h : detect_step p sim lc = .emit idx mx lc2 d) :
    ∀ i, d.time_indices.getD i false = true → (detCol lc2).getD i false = true := by
  obtain ⟨-, -, hmk⟩ := detect_step_emit h
  obtain ⟨-, hti, hlc2⟩ := make_detection_some hmk
  intro i hi
  rw [hlc2, detCol_markWindow, detCol_aliasState]
  rw [hti] at hi
  refine zipWith_or_getD_right ?_ hi
  rw [length_get_event_indices, (WF_aliasState (p := p) hwf).2.1, aliasState_n,
    WF_detCol_length hwf]

theorem peak_fresh_step {p : Pars} {sim : Bool} {lc lc2 : LC} {idx : ℕ} {mx : ℚ}
    {d : Detection} (hthr : 0 ≤ p.snr_threshold)
    (h : detect_step p sim lc = .emit idx mx lc2 d) :
    (detCol lc).getD idx false = false := by
  obtain ⟨harg, hmx, -⟩ := detect_step_emit h
  have hmx0 : 0 < mx := lt_of_le_of_lt hthr hmx
  obtain ⟨hget, -⟩ := argmaxQ_spec harg
  obtain ⟨m, sv, hm, hs, hy⟩ := workArr_get?_some hget
  cases hmcase : m with
  | true =>
    rw [hmcase] at hy
    simp at hy
    rw [hy] at hmx0
    exact absurd hmx0 (lt_irrefl 0)
  | false =>
    rw [hmcase] at hm
    obtain ⟨dv, fv, sv2, hd, hf, hs2, hb⟩ := maskArr_get?_some hm
    have hdv : dv = false := by
      cases dv with
      | false => rfl
      | true => simp at hb
    subst hdv
    rw [List.getD_eq_get?, hd]
    rfl

/-! ## Lemma kit: loop-level inductions -/

theorem detect_loop_length {p : Pars} {sim : Bool} {k : ℕ} {lc lc' : LC} {ds : List Detection}
    (h : detect_loop p sim k lc = some (lc', ds)) : ds.length ≤ k := by
  induction k generalizing lc lc' ds with
  | zero =>
    simp only [detect_loop, Option.some.injEq, Prod.mk.injEq] at h
    rw [← h.2]
    exact Nat.le_refl 0
  | succ k ih =>
    simp only [detect_loop] at h
    cases hstep : detect_step p sim lc with
    | fail => rw [hstep] at h; simp at h
    | halt lc1 =>
      rw [hstep] at h
      simp only [Option.some.injEq, Prod.mk.injEq] at h
      rw [← h.2]
      exact Nat.zero_le _
    | emit idx mx lc2 d =>
      rw [hstep] at h
      dsimp only at h
      cases hrest : detect_loop p sim k lc2 with
      | none => rw [hrest] at h; simp at h
      | some r =>
        obtain ⟨lc3, ds3⟩ := r
        rw [hrest] at h
        simp only [Option.some.injEq, Prod.mk.injEq] at h
        rw [← h.2]
        simpa using Nat.succ_le_succ (ih hrest)

theorem peaks_fresh_loop {p : Pars} {sim : Bool} {k : ℕ} {lc lc' : LC} {ds : List Detection}
    (hthr : 0 ≤ p.snr_threshold) (hwf : WF lc)
    (h : detect_loop p sim k lc = some (lc', ds)) :
    ∀ d ∈ ds, (detCol lc).getD d.peak_idx false = false := by
  induction k generalizing lc lc' ds with
  | zero =>
    simp only [detect_loop, Option.some.injEq, Prod.mk.injEq] at h
    rw [← h.2]
    intro d hd
    simp at hd
  | succ k ih =>
    simp only [detect_loop] at h
    cases hstep : detect_step p sim lc with
    | fail => rw [hstep] at h; simp at h
    | halt lc1 =>
      rw [hstep] at h
      simp only [Option.some.injEq, Prod.mk.injEq] at h
      rw [← h.2]
      intro d hd
      simp at hd
    | emit idx mx lc2 d0 =>
      rw [hstep] at h
      dsimp only at h
      cases hrest : detect_loop p sim k lc2 with
      | none => rw [hrest] at h; simp at h
      | some r =>
        obtain ⟨lc3, ds3⟩ := r
        rw [hrest] at h
        simp only [Option.some.injEq, Prod.mk.injEq] at h
        rw [← h.2]
        intro d hd
        rcases List.mem_cons.mp hd with rfl | hd
        · obtain ⟨-, -, hmk⟩ := detect_step_emit hstep
          obtain ⟨hpk, -, -⟩ := make_detection_some hmk
          rw [hpk]
          exact peak_fresh_step hthr hstep
        · have hfree2 := ih (WF_detect_step_emit hwf hstep) hrest d hd
          cases hcase : (detCol lc).getD d.peak_idx false with
          | false => rfl
          | true =>
            have := detected_mono_step hwf hstep d.peak_idx hcase
            rw [this] at hfree2
            exact absurd hfree2 (by simp)

theorem windows_not_reclaimed {p : Pars} {sim : Bool} {k : ℕ} {lc lc' : LC}
    {ds : List Detection} (hthr : 0 ≤ p.snr_threshold) (hwf : WF lc)
    (h : detect_loop p sim k lc = some (lc', ds)) :
    ∀ a b da db, a < b → ds.get? a = some da → ds.get? b = some db →
      da.time_indices.getD db.peak_idx false = false := by
  induction k generalizing lc lc' ds with
  | zero =>
    simp only [detect_loop, Option.some.injEq, Prod.mk.injEq] at h
    rw [← h.2]
    intro a b da db hab ha hb
    simp at ha
  | succ k ih =>
    simp only [detect_loop] at h
    cases hstep : detect_step p sim lc with
    | fail => rw [hstep] at h; simp at h
    | halt lc1 =>
      rw [hstep] at h
      simp only [Option.some.injEq, Prod.mk.injEq] at h
      rw [← h.2]
      intro a b da db hab ha hb
      simp at ha
    | emit idx mx lc2 d0 =>
      rw [hstep] at h
      dsimp only at h
      cases hrest : detect_loop p sim k lc2 with
      | none => rw [hrest] at h; simp at h
      | some r =>
        obtain ⟨lc3, ds3⟩ := r
        rw [hrest] at h
        simp only [Option.some.injEq, Prod.mk.injEq] at h
        rw [← h.2]
        have hwf2 := WF_detect_step_emit hwf hstep
        intro a b da db hab ha hb
        cases a with
        | zero =>
          cases b with
          | zero => exact absurd hab (lt_irrefl 0)
          | succ b1 =>
            simp only [List.get?] at ha hb
            cases ha
            have hdbmem : db ∈ ds3 := List.get?_mem hb
            have hfresh := peaks_fresh_loop hthr hwf2 hrest db hdbmem
            cases hcase : d0.time_indices.getD db.peak_idx false with
            | false => rfl
            | true =>
              have := window_marked_step hwf hstep db.peak_idx hcase
              rw [this] at hfresh
              exact absurd hfresh (by simp)
        | succ a1 =>
          cases b with
          | zero => exact absurd hab (by omega)
          | succ b1 =>
            simp only [List.get?] at ha hb
            exact ih hwf2 hrest a1 b1 da db (by omega) ha hb

theorem workArr_next_le {p : Pars} {sim : Bool} {lc lc2 : LC} {idx : ℕ} {mx : ℚ}
    {d : Detection} (hthr : 0 ≤ p.snr_threshold)
    (h : detect_step p sim lc = .emit idx mx lc2 d) :
    ∀ y ∈ workArr p lc2, y ≤ mx := by
  obtain ⟨harg, hmx, hmk⟩ := detect_step_emit h
  obtain ⟨-, -, hlc2⟩ := make_detection_some hmk
  have hmx0 : (0 : ℚ) < mx := lt_of_le_of_lt hthr hmx
  have hmax := (argmaxQ_spec harg).2
  intro y hy
  obtain ⟨i, hi⟩ := List.mem_iff_get?.mp hy
  obtain ⟨m2, sv2, hm2, hs2, hy2⟩ := workArr_get?_some hi
  cases hm2case : m2 with
  | true =>
    rw [hm2case] at hy2
    simp at hy2
    rw [hy2]
    exact le_of_lt hmx0
  | false =>
    rw [hm2case] at hy2
    simp at hy2
    cases habs : p.abs_snr with
    | true =>
      have hsnr2 : lc2.snr = lc.snr := by
        rw [hlc2]
        show (aliasState p lc).snr = lc.snr
        unfold aliasState
        rw [habs]
        simp
      have hflag2 : lc2.flag = lc.flag := by
        rw [hlc2]
        show (aliasState p lc).flag = lc.flag
        exact aliasState_flag p lc
      have hview2 : snrView p lc2 = snrView p lc := by
        unfold snrView
        rw [habs]
        simp [hsnr2]
      rw [hm2case] at hm2
      obtain ⟨dv2, fv2, sv2b, hd2, hf2, hs2b, hb2⟩ := maskArr_get?_some hm2
      have hdv2 : dv2 = false := by
        cases dv2 with
        | false => rfl
        | true => simp at hb2
      have hfv2 : fv2 = false := by
        cases fv2 with
        | false => rfl
        | true => rw [hdv2] at hb2; simp at hb2
      have hnan2 : visnan sv2b = false := by
        cases hv : visnan sv2b with
        | false => rfl
        | true => rw [hdv2, hfv2, hv] at hb2; simp at hb2
      -- the detected entry in lc2 came from an or with the entry in lc
      have hd2' : (detCol lc2).get? i = some dv2 := hd2
      rw [hlc2, detCol_markWindow, detCol_aliasState] at hd2'
      obtain ⟨dv1, tv, hdv1, htv, hor⟩ :=
        (List.get?_zipWith_eq_some _ _ _ _ _).mp hd2'
      have hdv1f : dv1 = false := by
        cases dv1 with
        | false => rfl
        | true => rw [← hor] at hdv2; simp at hdv2
      -- rebuild the mask entry of the pre-state
      have hsv1 : (snrView p lc).get? i = some sv2b := by
        rw [← hview2]
        exact hs2b
      have hf1 : lc.flag.get? i = some fv2 := by
        rw [← hflag2]
        exact hf2
      have hm1 : (maskArr p lc).get? i = some (dv1 || fv2 || visnan sv2b) :=
        maskArr_get?_intro hdv1 hf1 hsv1
      rw [hdv1f, hfv2, hnan2] at hm1
      have hm1' : (maskArr p lc).get? i = some false := by simpa using hm1
      have hw1 : (workArr p lc).get? i = some (if false then 0 else sv2b.getD 0) :=
        workArr_get?_intro hm1' hsv1
      simp only [Bool.false_eq_true, if_false] at hw1
      have hsv : sv2 = sv2b := Option.some.inj (hs2.symm.trans hs2b)
      rw [hy2, hsv]
      exact hmax _ (List.get?_mem hw1)
    | false =>
      have hsnr2 : lc2.snr = (workArr p lc).map some := by
        rw [hlc2]
        show (aliasState p lc).snr = (workArr p lc).map some
        unfold aliasState
        rw [habs]
        simp
      have hview2 : snrView p lc2 = (workArr p lc).map some := by
        unfold snrView
        rw [habs]
        simp [hsnr2]
      rw [hview2, List.get?_map] at hs2
      cases hw : (workArr p lc).get? i with
      | none => rw [hw] at hs2; simp at hs2
      | some w =>
        rw [hw] at hs2
        simp only [Option.map_some'] at hs2
        have : sv2 = some w := ((Option.some.injEq _ _).mp hs2).symm
        rw [this] at hy2
        simp only [Option.getD_some] at hy2
        rw [hy2]
        exact hmax _ (List.get?_mem hw)

/-! ## Lemma kit: UniqueList -/

theorem beqSymm {α : Type} [BEq α] [LawfulBEq α] (a b : α) : (a == b) = (b == a) := by
  by_cases hab : a = b
  · subst hab; rfl
  · rw [beq_eq_false_iff_ne.mpr hab, beq_eq_false_iff_ne.mpr (Ne.symm hab)]

theorem ulCompare_refl (ic : Bool) (a : AttrVal) : ulCompare ic a a = true := by
  cases a with
  | str s =>
    show (if ic = true then s.toLower == s.toLower else s == s) = true
    by_cases h : ic = true
    · rw [if_pos h]; exact beq_self_eq_true _
    · rw [if_neg h]; exact beq_self_eq_true _
  | num z => exact beq_self_eq_true _

theorem ulCompare_symm (ic : Bool) (a b : AttrVal) : ulCompare ic a b = ulCompare ic b a := by
  cases a with
  | str s =>
    cases b with
    | str t =>
      show (if ic = true then s.toLower == t.toLower else s == t) =
        (if ic = true then t.toLower == s.toLower else t == s)
      by_cases h : ic = true
      · rw [if_pos h, if_pos h]; exact beqSymm _ _
      · rw [if_neg h, if_neg h]; exact beqSymm _ _
    | num w => exact beqSymm _ _
  | num z =>
    cases b with
    | str t => exact beqSymm _ _
    | num w => exact beqSymm _ _

theorem ulCheck_refl (attrs : List String) (ic : Bool) (v : Elem) :
    ulCheck attrs ic v v = true := by
  unfold ulCheck
  rw [List.all_eq_true]
  intro a _
  exact ulCompare_refl ic (v a)

theorem ulCheck_symm (attrs : List String) (ic : Bool) (v o : Elem) :
    ulCheck attrs ic v o = ulCheck attrs ic o v := by
  unfold ulCheck
  induction attrs with
  | nil => rfl
  | cons a as ih => simp only [List.all_cons, ih, ulCompare_symm ic (v a) (o a)]

/-- The `dupFree` invariant as a `Pairwise` predicate, for the structural lemmas. -/
theorem dupFreeAux_iff_pairwise {chk : Elem → Elem → Bool} {l : List Elem} :
    dupFreeAux chk l = true ↔ l.Pairwise (fun x y => chk x y = false) := by
  induction l with
  | nil => simp [dupFreeAux]
  | cons x xs ih =>
    simp [dupFreeAux, List.all_eq_true, List.pairwise_cons, ih, Bool.not_eq_true',
      and_comm]

theorem foldl_remove_config (vs : List Elem) (ul : UL) :
    (vs.foldl UL.check_and_remove ul).comparison_attributes = ul.comparison_attributes ∧
      (vs.foldl UL.check_and_remove ul).ignorecase = ul.ignorecase := by
  induction vs generalizing ul with
  | nil => exact ⟨rfl, rfl⟩
  | cons v vs ih =>
    simp only [List.foldl_cons]
    exact ih (ul.check_and_remove v)

theorem applyULOp_config (ul : UL) (op : ULOp) :
    (applyULOp ul op).comparison_attributes = ul.comparison_attributes ∧
      (applyULOp ul op).ignorecase = ul.ignorecase := by
  cases op with
  | append e => exact ⟨rfl, rfl⟩
  | extend es => exact foldl_remove_config es ul

theorem UL.check_eq (ul : UL) :
    ul.check = ulCheck ul.comparison_attributes ul.ignorecase := rfl

theorem foldl_remove_items (vs : List Elem) (ul : UL) :
    (vs.foldl UL.check_and_remove ul).items =
      ul.items.filter (fun o => vs.all (fun v => !(ul.check v o))) := by
  induction vs generalizing ul with
  | nil => simp
  | cons v vs ih =>
    simp only [List.foldl_cons]
    rw [ih (ul.check_and_remove v)]
    show (ul.items.filter fun o => !(ul.check v o)).filter
      (fun o => vs.all fun w => !((ul.check_and_remove v).check w o)) = _
    have hconf : (ul.check_and_remove v).check = ul.check := rfl
    rw [hconf, List.filter_filter]
    refine List.filter_congr ?_
    intro x _
    simp only [List.all_cons]
    rw [Bool.and_comm]

theorem dupFree_append {ul : UL} (h : ul.dupFree = true) (v : Elem) :
    (ul.append v).dupFree = true := by
  unfold UL.dupFree at h ⊢
  rw [dupFreeAux_iff_pairwise] at h ⊢
  show List.Pairwise _ ((ul.items.filter fun o => !(ul.check v o)) ++ [v])
  rw [List.pairwise_append]
  refine ⟨h.filter _, List.pairwise_singleton _ _, ?_⟩
  intro x hx y hy
  rw [List.mem_singleton] at hy
  obtain ⟨-, hxf⟩ := List.mem_filter.mp hx
  rw [Bool.not_eq_true'] at hxf
  show (ul.append v).check x y = false
  rw [hy]
  have hconf : (ul.append v).check = ul.check := rfl
  rw [hconf, UL.check_eq, ulCheck_symm]
  exact hxf

theorem dupFree_extend {ul : UL} (h : ul.dupFree = true) {vs : List Elem}
    (hvs : dupFreeAux ul.check vs = true) : (ul.extend vs).dupFree = true := by
  unfold UL.dupFree
  rw [dupFreeAux_iff_pairwise]
  show List.Pairwise (fun x y => (ul.extend vs).check x y = false)
    ((vs.foldl UL.check_and_remove ul).items ++ vs)
  have hconf : (ul.extend vs).check = ul.check := by
    rw [UL.check_eq, UL.check_eq]
    obtain ⟨h1, h2⟩ := applyULOp_config ul (.extend vs)
    rw [show (ul.extend vs).comparison_attributes = ul.comparison_attributes from h1,
      show (ul.extend vs).ignorecase = ul.ignorecase from h2]
  rw [hconf, foldl_remove_items, List.pairwise_append]
  refine ⟨?_, ?_, ?_⟩
  · unfold UL.dupFree at h
    rw [dupFreeAux_iff_pairwise] at h
    exact h.filter _
  · rw [← dupFreeAux_iff_pairwise]
    exact hvs
  · intro x hx y hy
    obtain ⟨-, hxf⟩ := List.mem_filter.mp hx
    rw [List.all_eq_true] at hxf
    have := hxf y hy
    rw [Bool.not_eq_true'] at this
    rw [UL.check_eq, ulCheck_symm, ← UL.check_eq]
    exact this

/-- Whether an operation's batch is internally duplicate-free (appends
always are). -/
def opBatchOK (attrs : List String) (ic : Bool) : ULOp → Bool
  | .append _ => true
  | .extend es => dupFreeAux (ulCheck attrs ic) es

theorem dupFree_applyULOps {ul : UL} {ops : List ULOp} (h : ul.dupFree = true)
    (hops : ∀ op ∈ ops, opBatchOK ul.comparison_attributes ul.ignorecase op = true) :
    (applyULOps ul ops).dupFree = true := by
  induction ops generalizing ul with
  | nil => exact h
  | cons op ops ih =>
    simp only [applyULOps, List.foldl_cons]
    have hstep : (applyULOp ul op).dupFree = true := by
      cases op with
      | append e => exact dupFree_append h e
      | extend es =>
        refine dupFree_extend h ?_
        have := hops (.extend es) (List.mem_cons_self _ _)
        simpa [opBatchOK, UL.check_eq] using this
    have hops2 : ∀ op2 ∈ ops,
        opBatchOK (applyULOp ul op).comparison_attributes (applyULOp ul op).ignorecase op2
          = true := by
      intro op2 hop2
      obtain ⟨h1, h2⟩ := applyULOp_config ul op
      rw [h1, h2]
      exact hops op2 (List.mem_cons_of_mem _ hop2)
    exact ih hstep hops2

theorem append_countP_tail (ul : UL) (v : Elem) :
    (ul.append v).items.countP (fun o => ul.check v o) = 1 ∧
      (ul.append v).items.getLast? = some v := by
  constructor
  · show ((ul.items.filter fun o => !(ul.check v o)) ++ [v]).countP _ = 1
    rw [List.countP_append, List.countP_filter]
    have h0 : (ul.items.countP fun a => ul.check v a && !(ul.check v a)) = 0 := by
      rw [List.countP_eq_zero]
      intro a _
      simp
    rw [h0]
    simp [List.countP_cons, ulCheck_refl, UL.check_eq]
  · show ((ul.items.filter fun o => !(ul.check v o)) ++ [v]).getLast? = some v
    rw [List.getLast?_append]
    rfl

/-! ## Lemma kit: CircularBufferList -/

theorem lastSlice_nil {α : Type} (s : ℕ) : lastSlice ([] : List α) s = [] := by
  unfold lastSlice
  split <;> simp

theorem lastSlice_of_le {α : Type} {l : List α} {s : ℕ} (hs : 1 ≤ s)
    (h : l.length ≤ s) : lastSlice l s = l := by
  unfold lastSlice
  rw [if_neg (by omega)]
  have : l.length - s = 0 := by omega
  rw [this, List.drop_zero]

theorem lastSlice_length {α : Type} {l : List α} {s : ℕ} (hs : 1 ≤ s) :
    (lastSlice l s).length = min l.length s := by
  unfold lastSlice
  rw [if_neg (by omega), List.length_drop]
  omega

theorem lastSlice_append_absorb {α : Type} {l vs : List α} {s : ℕ} (hs : 1 ≤ s) :
    lastSlice (lastSlice l s ++ vs) s = lastSlice (l ++ vs) s := by
  by_cases hls : l.length ≤ s
  · rw [lastSlice_of_le hs hls]
  · unfold lastSlice
    rw [if_neg (by omega), if_neg (by omega), if_neg (by omega)]
    have hlen1 : (List.drop (l.length - s) l).length = s := by
      rw [List.length_drop]
      omega
    have hA : (List.drop (l.length - s) l ++ vs).length - s = vs.length := by
      rw [List.length_append, hlen1]
      omega
    rw [hA, List.drop_append_eq_append_drop, List.drop_append_eq_append_drop,
      List.drop_drop, List.length_append, hlen1]
    have e1 : l.length - s + vs.length = l.length + vs.length - s := by omega
    have e2 : vs.length - s = l.length + vs.length - s - l.length := by omega
    rw [e1, e2]

theorem CBL_append_spec {α : Type} {size : ℕ} (hs : 1 ≤ size) (pre : List α) (v : α)
    (t : ℕ) :
    CBL.append { size := size, total := t, items := lastSlice pre size } v =
      some { size := size, total := t + 1, items := lastSlice (pre ++ [v]) size } := by
  unfold CBL.append
  by_cases hfull : (lastSlice pre size).length = size
  · rw [if_pos hfull]
    cases hitems : lastSlice pre size with
    | nil =>
      exfalso
      rw [hitems] at hfull
      simp at hfull
      omega
    | cons x rest =>
      have hlenmin := lastSlice_length (l := pre) hs
      have hL : size ≤ pre.length := by
        rw [hfull] at hlenmin
        omega
      have hkey : rest ++ [v] = lastSlice (pre ++ [v]) size := by
        have hrest : rest = List.drop 1 (lastSlice pre size) := by
          rw [hitems]
          rfl
        unfold lastSlice at hrest
        rw [if_neg (by omega)] at hrest
        unfold lastSlice
        rw [if_neg (by omega), List.length_append]
        have hidx : pre.length + [v].length - size = (pre.length - size) + 1 := by
          simp only [List.length_singleton]
          omega
        rw [hidx, List.drop_append_of_le_length (by omega), hrest, List.drop_drop]
      simp only [Option.some.injEq, CBL.mk.injEq, true_and]
      exact hkey
  · rw [if_neg hfull]
    have hlenmin := lastSlice_length (l := pre) hs
    have hlt : pre.length < size := by omega
    have hpre : lastSlice pre size = pre := lastSlice_of_le hs (by omega)
    have hkey : lastSlice pre size ++ [v] = lastSlice (pre ++ [v]) size := by
      rw [hpre, lastSlice_of_le hs (by simp; omega)]
    simp only [Option.some.injEq, CBL.mk.injEq, true_and]
    exact hkey

theorem CBL_extend_spec {α : Type} {size : ℕ} (hs : 1 ≤ size) (pre vs : List α)
    (t : ℕ) :
    CBL.extend { size := size, total := t, items := lastSlice pre size } vs =
      { size := size, total := t + vs.length, items := lastSlice (pre ++ vs) size } := by
  unfold CBL.extend
  simp only [CBL.mk.injEq, true_and]
  exact lastSlice_append_absorb hs

theorem applyCBOps_from {α : Type} {size : ℕ} (hs : 1 ≤ size) (pre : List α)
    (ops : List (CBOp α)) :
    applyCBOps { size := size, total := pre.length, items := lastSlice pre size } ops =
      some { size := size, total := (pre ++ allInserted ops).length,
             items := lastSlice (pre ++ allInserted ops) size } := by
  induction ops generalizing pre with
  | nil => simp [applyCBOps, allInserted]
  | cons op ops ih =>
    cases op with
    | append v =>
      simp only [applyCBOps, applyCBOp, CBL_append_spec hs pre v pre.length]
      have := ih (pre ++ [v])
      rw [show (pre ++ [v]).length = pre.length + 1 by simp] at this
      rw [this]
      simp [allInserted, List.append_assoc]
    | extend vs =>
      simp only [applyCBOps, applyCBOp, CBL_extend_spec hs pre vs pre.length]
      have := ih (pre ++ vs)
      rw [show (pre ++ vs).length = pre.length + vs.length by simp] at this
      rw [this]
      simp [allInserted, List.append_assoc]

/-! ## Concrete inputs used by witnesses and counterexamples -/

/-- Observation that `np.isnan` commutes with `np.abs`. -/
theorem visnan_vAbs (v : V) : visnan (vAbs v) = visnan v := by
  cases v <;> rfl

/-- Projections of a `StepRes`, for naming a concrete emitted state. -/
def stepLC : StepRes → LC
  | .emit _ _ l _ => l
  | .halt l => l
  | .fail => ⟨[], [], [], [], [], none, none, [], [], none⟩

/-- The peak index of an emitted step. -/
def stepIdx : StepRes → ℕ
  | .emit i _ _ _ => i
  | _ => 0

/-- The masked maximum of an emitted step. -/
def stepMx : StepRes → ℚ
  | .emit _ m _ _ => m
  | _ => 0

/-- The detection of an emitted step. -/
def stepDet : StepRes → Detection
  | .emit _ _ _ d => d
  | _ => ⟨0, none, none, [], none, none, false⟩

/-- A placeholder detection record. -/
def dFallback : Detection := ⟨0, none, none, [], none, none, false⟩

/-- Configuration with two allowed detections per lightcurve
(`snr_threshold=5`, sidebands `-2`, `abs_snr` on). -/
def c1p : Pars :=
  { snr_threshold := 5, snr_threshold_sidebands := some (-2), max_det_per_lc := 2,
    abs_snr := true }

/-- A two-point lightcurve whose snr column scores to `[10, -10]`. -/
def c1lc : LC :=
  { times := [some 0, some 1], flux := [some 10, some (-10)],
    fluxerr := [some 1, some 1], mag := [some 0, some 0], flag := [false, false],
    flux_mean_robust := some 0, flux_rms_robust := some 1, snr := [], dmag := [],
    detected := none }

/-- The run of `ingest_lightcurves` on `c1lc`. -/
def c1run : LC × List Detection := (ingest_one c1p false c1lc).getD (c1lc, [])

/-- Whether the first two detections of the `c1` run overlap at index 0. -/
def c1overlapTest : Bool :=
  match ingest_one c1p false c1lc with
  | some (_, [d1, d2]) => d1.time_indices.getD 0 false && d2.time_indices.getD 0 false
  | _ => false

/-- Absolute sideband threshold above the detection threshold. -/
def c2p : Pars :=
  { snr_threshold := 5, snr_threshold_sidebands := some 7, max_det_per_lc := 1,
    abs_snr := false }

/-- A one-point lightcurve whose snr column scores to `[6]`. -/
def c2lc : LC :=
  { times := [some 0], flux := [some 6], fluxerr := [some 1], mag := [some 0],
    flag := [false], flux_mean_robust := some 0, flux_rms_robust := some 1,
    snr := [], dmag := [], detected := none }

/-- Default-like configuration, one detection per lightcurve. -/
def c3p : Pars :=
  { snr_threshold := 5, snr_threshold_sidebands := some (-2), max_det_per_lc := 1,
    abs_snr := true }

/-- A one-point lightcurve whose snr column scores to `[10]`. -/
def c3lc : LC :=
  { times := [some 0], flux := [some 10], fluxerr := [some 1], mag := [some 0],
    flag := [false], flux_mean_robust := some 0, flux_rms_robust := some 1,
    snr := [], dmag := [], detected := none }

/-- The run of the extractor on `c3lc`. -/
def c3run : LC × List Detection := (ingest_one c3p false c3lc).getD (c3lc, [])

/-- A loop state whose masked maximum (1) is below the threshold (5). -/
def c3s : LC :=
  { times := [some 0], flux := [some 1], fluxerr := [some 1], mag := [some 0],
    flag := [false], flux_mean_robust := some 0, flux_rms_robust := some 1,
    snr := [some 1], dmag := [some 0], detected := some [false] }

/-- The run of the extractor on `c3lc` under `c3p`, reused for C4. -/
def c4run : LC × List Detection := (ingest_one c3p false c3lc).getD (c3lc, [])

/-- Negative detection threshold: a flagged-out point still "detects". -/
def c8cp : Pars :=
  { snr_threshold := -1, snr_threshold_sidebands := some (-2), max_det_per_lc := 1,
    abs_snr := true }

/-- A one-point lightcurve whose only point is quality-flagged. -/
def c8clc : LC :=
  { times := [some 0], flux := [some 10], fluxerr := [some 1], mag := [some 0],
    flag := [true], flux_mean_robust := some 0, flux_rms_robust := some 1,
    snr := [], dmag := [], detected := none }

/-- Default-like configuration for the amended degenerate-input claim. -/
def c8wp : Pars :=
  { snr_threshold := 5, snr_threshold_sidebands := some (-2), max_det_per_lc := 1,
    abs_snr := true }

/-- A one-point, fully flagged lightcurve: zero usable points. -/
def c8wlc : LC :=
  { times := [some 0], flux := [some 10], fluxerr := [some 1], mag := [some 0],
    flag := [true], flux_mean_robust := some 0, flux_rms_robust := some 1,
    snr := [], dmag := [], detected := none }

/-- A noise-estimation example lightcurve. -/
def c7lc : LC :=
  { times := [some 0, some 1], flux := [some 3, some 4],
    fluxerr := [some 1, some 5], mag := [some 0, some 0], flag := [false, false],
    flux_mean_robust := some 0, flux_rms_robust := some 2, snr := [], dmag := [],
    detected := none }

/-- The run of `ingest_lightcurves` on the singleton list `[c3lc]`. -/
def c9run : List LC × List Detection :=
  (ingest_lightcurves c3p false [c3lc]).getD ([], [])

/-- The first loop iteration on the scored two-point lightcurve. -/
def c10step : StepRes := detect_step c1p false (score c1lc)

/-- An element named "a". -/
def elemA : Elem := fun _ => AttrVal.str "a"

/-- An element named "b". -/
def elemB : Elem := fun _ => AttrVal.str "b"

/-- Insert operations whose batches are all fine. -/
def c5ops : List ULOp := [ULOp.append elemA, ULOp.append elemB, ULOp.append elemA]

/-- A `CircularBufferList(0)` after `extend([1])`. -/
def c6bad : CBL ℕ := (mkCBL ℕ 0).extend [1]

/-- The four-append example of the specification. -/
def c6ops : List (CBOp ℕ) := [.append 1, .append 2, .append 3, .append 4]

/-! ## Claim theorems -/

/-- C1 (counterexample): with `abs_snr` on, sidebands `-2` and two allowed
detections, the snr column `[10, -10]` yields two detections in one call
whose `time_indices` masks are both true at index 0 — the masks of two
detections emitted from the same lightcurve in the same call are NOT
disjoint, refuting the claim as stated. -/
theorem C1_counterexample : c1overlapTest = true := by decide

/-- C1 (amended): provided `snr_threshold ≥ 0`, an index marked by an
earlier detection's `time_indices` window is never re-claimed as the
peak index of a later detection in the same call (the full masks,
however, may overlap). -/
theorem C1_nonreclaim_amended (p : Pars) (sim : Bool) (lc lc' : LC) (ds : List Detection)
    (hthr : 0 ≤ p.snr_threshold) (hraw : WFraw lc)
    (h : ingest_one p sim lc = some (lc', ds)) :
    ∀ a b da db, a < b → ds.get? a = some da → ds.get? b = some db →
      da.time_indices.getD db.peak_idx false = false :=
  windows_not_reclaimed hthr (WF_score hraw) h

/-- C1 witness: the amended statement evaluated on the concrete
two-detection run. -/
theorem C1_nonreclaim_witness :
    (c1run.2.getD 0 dFallback).time_indices.getD
      ((c1run.2.getD 1 dFallback).peak_idx) false = false :=
  C1_nonreclaim_amended c1p false c1lc c1run.1 c1run.2 (by decide) (by decide)
    (by decide) 0 1 (c1run.2.getD 0 dFallback) (c1run.2.getD 1 dFallback)
    (by decide) (by decide) (by decide)

/-- C2: with an absolute sideband threshold (7) above the detection
threshold (5), the point with snr 6 is emitted as a peak but the
membership mask is all-false, so the `time_start` computation raises
(`IndexError` on `np.where([])[0][0]`), modelled as overall failure:
the source does not guarantee the peak index is in the mask. -/
theorem C2_peak_mask_failure : ingest_one c2p false c2lc = none := by decide

/-- C3: one call of the extractor on a lightcurve emits at most
`max_det_per_lc` detections, and from any loop state whose masked
maximum does not strictly exceed `snr_threshold` the loop stops at once
(no detection at that or any later iteration). -/
theorem C3_bounded_and_stops (p : Pars) (sim : Bool) (lc lc' : LC) (ds : List Detection)
    (s : LC) (idx m : ℕ) (mx : ℚ)
    (h1 : ingest_one p sim lc = some (lc', ds))
    (h2 : argmaxQ (workArr p s) = some (idx, mx))
    (h3 : ¬ mx > p.snr_threshold) :
    ds.length ≤ p.max_det_per_lc ∧
      detect_loop p sim (m + 1) s = some (aliasState p s, []) := by
  refine ⟨detect_loop_length h1, ?_⟩
  have hh := detect_step_halt_intro sim h2 h3
  simp [detect_loop, hh]

/-- C3 witness: the bound and the stop evaluated on concrete runs. -/
theorem C3_bounded_witness :
    c3run.2.length ≤ c3p.max_det_per_lc ∧
      detect_loop c3p false (0 + 1) c3s = some (aliasState c3p c3s, []) :=
  C3_bounded_and_stops c3p false c3lc c3run.1 c3run.2 c3s 0 0 1 (by decide)
    (by decide) (by decide)

/-- C4: the engine carries no state of its own between lightcurves or
between top-level calls: ingesting two lightcurves equal to `lc` in one
call (equivalently, re-running on an equal, unchanged input) produces
the same detections for each, and the same mutated lightcurve state. -/
theorem C4_stateless (p : Pars) (sim : Bool) (lc lc1 : LC) (ds : List Detection)
    (h : ingest_one p sim lc = some (lc1, ds)) :
    ingest_lightcurves p sim [lc, lc] = some ([lc1, lc1], ds ++ ds) := by
  simp [ingest_lightcurves, h]

/-- C4 witness: the duplicated run evaluated on a concrete lightcurve. -/
theorem C4_stateless_witness :
    ingest_lightcurves c3p false [c3lc, c3lc] = some ([c4run.1, c4run.1], c4run.2 ++ c4run.2) :=
  C4_stateless c3p false c3lc c4run.1 c4run.2 (by decide)

/-- C7: `estimate_flux_noise` returns an array of the lightcurve's
length whose entry at every index is the (numpy) maximum of the
per-point flux error and the whole-curve robust RMS; being a pure
function of its input, repeated calls agree by construction. -/
theorem C7_noise_floor (lc : LC) (hraw : WFraw lc) :
    (estimate_flux_noise lc).length = lc.n ∧
      ∀ i, (estimate_flux_noise lc).get? i =
        (lc.fluxerr.get? i).map (fun e => vMax e lc.flux_rms_robust) := by
  constructor
  · unfold estimate_flux_noise
    rw [List.length_map]
    exact hraw.2.1
  · intro i
    unfold estimate_flux_noise
    rw [List.get?_map]

/-- C7 witness: the noise policy evaluated on a concrete lightcurve. -/
theorem C7_noise_floor_witness :
    (estimate_flux_noise c7lc).length = c7lc.n ∧
      (estimate_flux_noise c7lc).get? 0 =
        (c7lc.fluxerr.get? 0).map (fun e => vMax e c7lc.flux_rms_robust) :=
  ⟨(C7_noise_floor c7lc (by decide)).1, (C7_noise_floor c7lc (by decide)).2 0⟩

/-- C8 (counterexample): with `snr_threshold = -1`, a lightcurve whose
only point is flagged (zero usable points) still emits one detection —
the loop does not terminate with zero detections, refuting the claim
for arbitrary threshold settings. -/
theorem C8_counterexample :
    (ingest_one c8cp false c8clc).map (fun r => r.2.length) = some 1 := by decide

/-- C8 (amended): provided `snr_threshold ≥ 0` and the lightcurve is
non-empty, if every point is flagged, already detected, or has NaN
snr, the extractor terminates after its first iteration with zero
detections and without failing: NaN snr entries are masked to zero. -/
theorem C8_degenerate_amended (p : Pars) (sim : Bool) (lc : LC)
    (hthr : 0 ≤ p.snr_threshold) (hn : 1 ≤ lc.n) (hraw : WFraw lc)
    (hdead : ∀ i, i < lc.n →
      lc.flag.getD i false = true ∨ (detCol (score lc)).getD i false = true ∨
        visnan ((score lc).snr.getD i (some 0)) = true) :
    (ingest_one p sim lc).map Prod.snd = some [] := by
  have hwfs : WF (score lc) := WF_score hraw
  have hzero : ∀ y ∈ workArr p (score lc), y = 0 := by
    intro y hy
    obtain ⟨i, hi⟩ := List.mem_iff_get?.mp hy
    obtain ⟨m, sv, hm, hs, hy2⟩ := workArr_get?_some hi
    have hmtrue : m = true := by
      obtain ⟨dv, fv, sv2, hd, hf, hs2, hb⟩ := maskArr_get?_some hm
      have hilt : i < lc.n := by
        obtain ⟨hlt, -⟩ := List.get?_eq_some.mp hm
        rw [WF_maskArr_length hwfs] at hlt
        exact hlt
      rcases hdead i hilt with hflag | hdet | hnan
      · have hff : lc.flag.get? i = some fv := hf
        rw [getD_false_iff_get?] at hflag
        rw [hflag] at hff
        have hfv : fv = true := (Option.some.inj hff).symm
        rw [hb, hfv]
        simp
      · rw [getD_false_iff_get?] at hdet
        rw [hdet] at hd
        have hdv : dv = true := (Option.some.inj hd).symm
        rw [hb, hdv]
        simp
      · have hlen : i < (score lc).snr.length := by
          rw [hwfs.2.1]
          exact hilt
        have hv0 : ∃ v0, (score lc).snr.get? i = some v0 ∧ visnan v0 = true := by
          cases hcase : (score lc).snr.get? i with
          | none =>
            have := List.get?_eq_none.mp hcase
            omega
          | some v0 =>
            refine ⟨v0, rfl, ?_⟩
            rw [List.getD_eq_get?, hcase] at hnan
            exact hnan
        obtain ⟨v0, hv0get, hv0nan⟩ := hv0
        have hsv2nan : visnan sv2 = true := by
          have hs2' := hs2
          unfold snrView at hs2'
          by_cases habs : p.abs_snr = true
          · rw [if_pos habs, List.get?_map, hv0get] at hs2'
            have : sv2 = vAbs v0 := (Option.some.inj hs2').symm
            rw [this, visnan_vAbs]
            exact hv0nan
          · rw [if_neg habs, hv0get] at hs2'
            have : sv2 = v0 := (Option.some.inj hs2').symm
            rw [this]
            exact hv0nan
        rw [hb, hsv2nan]
        simp
    rw [hy2, hmtrue]
    simp
  cases hfuel : p.max_det_per_lc with
  | zero => simp [ingest_one, hfuel, detect_loop]
  | succ k =>
    have hne : workArr p (score lc) ≠ [] := by
      have hlw : (workArr p (score lc)).length = lc.n := WF_workArr_length hwfs
      intro hcon
      rw [hcon] at hlw
      simp at hlw
      omega
    cases harg : argmaxQ (workArr p (score lc)) with
    | none => exact absurd harg (argmaxQ_ne_none hne)
    | some jm =>
      obtain ⟨j, mxv⟩ := jm
      have hmx0 : mxv = 0 := hzero _ (List.get?_mem (argmaxQ_spec harg).1)
      have hhalt := detect_step_halt_intro sim harg
        (by rw [hmx0]; exact not_lt.mpr hthr)
      simp [ingest_one, hfuel, detect_loop, hhalt]

/-- C8 witness: the amended statement evaluated on a one-point,
fully flagged lightcurve under the default thresholds. -/
theorem C8_degenerate_witness : (ingest_one c8wp false c8wlc).map Prod.snd = some [] :=
  C8_degenerate_amended c8wp false c8wlc (by decide) (by decide) (by decide) (by decide)

/-- C9: a call of `ingest_lightcurves` mutates only the derived columns
(`snr`, `dmag`, `detected`): every raw measurement column (`time`,
`flux`, `flux_error`, `magnitude`, `flag`) and the robust statistics of
every processed lightcurve are unchanged, under every configuration. -/
theorem C9_raw_frame (p : Pars) (sim : Bool) (lcs lcs' : List LC) (ds : List Detection)
    (h : ingest_lightcurves p sim lcs = some (lcs', ds)) :
    lcs'.length = lcs.length ∧
      ∀ i a b, lcs.get? i = some a → lcs'.get? i = some b → rawEq a b := by
  induction lcs generalizing lcs' ds with
  | nil =>
    simp only [ingest_lightcurves, Option.some.injEq, Prod.mk.injEq] at h
    rw [← h.1]
    exact ⟨rfl, by intro i a b ha _; simp at ha⟩
  | cons lc rest ih =>
    simp only [ingest_lightcurves] at h
    cases h1 : ingest_one p sim lc with
    | none => rw [h1] at h; simp at h
    | some r1 =>
      obtain ⟨lc1, ds1⟩ := r1
      rw [h1] at h
      dsimp only at h
      cases h2 : ingest_lightcurves p sim rest with
      | none => rw [h2] at h; simp at h
      | some r2 =>
        obtain ⟨lcs2, ds2⟩ := r2
        rw [h2] at h
        simp only [Option.some.injEq, Prod.mk.injEq] at h
        obtain ⟨hl, -⟩ := h
        rw [← hl]
        obtain ⟨ihl, ihp⟩ := ih lcs2 ds2 h2
        refine ⟨by simp [ihl], ?_⟩
        intro i a b ha hb
        cases i with
        | zero =>
          simp only [List.get?] at ha hb
          injection ha with ha'
          injection hb with hb'
          rw [← ha', ← hb']
          exact rawEq_ingest_one h1
        | succ j =>
          simp only [List.get?] at ha hb
          exact ihp j a b ha hb

/-- C9 witness: the frame condition evaluated on a concrete run. -/
theorem C9_raw_frame_witness :
    c9run.1.length = [c3lc].length ∧ rawEq c3lc (c9run.1.getD 0 c3lc) :=
  ⟨(C9_raw_frame c3p false [c3lc] c9run.1 c9run.2 (by decide)).1,
    (C9_raw_frame c3p false [c3lc] c9run.1 c9run.2 (by decide)).2 0 c3lc
      (c9run.1.getD 0 c3lc) (by decide) (by decide)⟩

/-- C10: provided `snr_threshold ≥ 0`, the masked maximum selected at
the iteration following an emission never exceeds the emitting
iteration's masked maximum: detections come out in non-increasing
order of masked significance. -/
theorem C10_monotone_max (p : Pars) (sim : Bool) (lc lc2 : LC) (idx idx2 : ℕ)
    (mx mx2 : ℚ) (d : Detection) (hthr : 0 ≤ p.snr_threshold)
    (h : detect_step p sim lc = .emit idx mx lc2 d)
    (h2 : argmaxQ (workArr p lc2) = some (idx2, mx2)) :
    mx2 ≤ mx :=
  workArr_next_le hthr h mx2 (List.get?_mem (argmaxQ_spec h2).1)

/-- C10 witness: on the concrete two-point run the second iteration's
masked maximum (10) is bounded by the first's. -/
theorem C10_monotone_witness : (10 : ℚ) ≤ stepMx c10step :=
  C10_monotone_max c1p false (score c1lc) (stepLC c10step) (stepIdx c10step) 1
    (stepMx c10step) 10 (stepDet c10step) (by decide) (by decide) (by decide)

/-- C5 (counterexample): `extend` first removes matches of each batch
element among the existing items and only then appends the whole
batch, so a batch containing two elements with equal keys leaves the
list with a duplicate composite key, refuting the invariant as
stated. -/
theorem C5_counterexample :
    (applyULOps (mkUL [] false) [ULOp.extend [elemA, elemA]]).dupFree = false := by
  decide

/-- C5 (amended): for every sequence of `append`s and of `extend`s whose
batches are internally duplicate-free, the list never holds two
elements with equal composite keys; and `append` of an element whose
key matches an existing element's always leaves exactly one element
with that key, positioned at the tail. -/
theorem C5_unique_amended (ul : UL) (ops : List ULOp) (v : Elem)
    (hinv : ul.dupFree = true)
    (hops : ∀ op ∈ ops, opBatchOK ul.comparison_attributes ul.ignorecase op = true) :
    (applyULOps ul ops).dupFree = true ∧
      (ul.append v).items.countP (fun o => ul.check v o) = 1 ∧
      (ul.append v).items.getLast? = some v :=
  ⟨dupFree_applyULOps hinv hops, (append_countP_tail ul v).1, (append_countP_tail ul v).2⟩

/-- C5 witness: the amended statement evaluated on the append sequence
"a", "b", "a" over a default-keyed list. -/
theorem C5_unique_witness :
    (applyULOps (mkUL [] false) c5ops).dupFree = true ∧
      ((mkUL [] false).append elemA).items.countP
        (fun o => (mkUL [] false).check elemA o) = 1 ∧
      ((mkUL [] false).append elemA).items.getLast? = some elemA :=
  C5_unique_amended (mkUL [] false) c5ops elemA (by decide) (by decide)

/-- C6 (counterexample): a `CircularBufferList` of capacity 0 violates
`len == min(total, size)` after `extend([1])`, because the Python slice
`self[-0:]` keeps the whole list, refuting the claim for every
capacity. -/
theorem C6_counterexample : c6bad.items.length ≠ min c6bad.total c6bad.size := by
  decide

/-- C6 (amended): for every capacity `size ≥ 1` and every operation
sequence, no operation fails, `total` counts every element ever passed
in, the contents equal the last `size` inserted elements in insertion
order, and `len == min(total, size)`. -/
theorem C6_buffer_amended {α : Type} (size : ℕ) (ops : List (CBOp α)) (hs : 1 ≤ size) :
    applyCBOps (mkCBL α size) ops =
      some { size := size, total := (allInserted ops).length,
             items := lastSlice (allInserted ops) size } ∧
      (lastSlice (allInserted ops) size).length = min (allInserted ops).length size := by
  constructor
  · have h := applyCBOps_from (α := α) hs [] ops
    rw [lastSlice_nil] at h
    simpa [mkCBL] using h
  · exact lastSlice_length hs

/-- C6 witness: the specification's own example,
`CircularBufferList(3)` after appending 1,2,3,4. -/
theorem C6_buffer_witness :
    applyCBOps (mkCBL ℕ 3) c6ops =
      some { size := 3, total := (allInserted c6ops).length,
             items := lastSlice (allInserted c6ops) 3 } ∧
      (lastSlice (allInserted c6ops) 3).length = min (allInserted c6ops).length 3 :=
  C6_buffer_amended 3 c6ops (by decide)

end VirtualObserver
